import Mathlib

set_option maxRecDepth 4000

/-!
Verification of the progressive content-deduplication analyzer
(`deduplicate.py`): a shallow embedding of its data model and operations,
together with proofs of the specified properties.

Modelling choices:
* File bytes are `Nat`s; a filesystem is `fs : String → Option (List Nat)`,
  where `none` models a file whose `open`/`read` raises (I/O error).
* File sizes as reported by `os.path.getsize` are a separate observation
  `sz : String → Option Nat` (`none` models a failing `getsize`), since the
  code stats and reads in separate syscalls.
* `hashlib.md5(...).hexdigest()` is a fixed abstract digest function
  `md5hex : List Nat → String` (deterministic, as in the library).
* The Python `dict` keyed by `(checksum, size)` is an insertion-ordered
  association list, matching CPython's dict iteration order.
* The `IndexError` raised by `chunks[0]` on an empty path list is modelled
  by an `Option` result (`none` = uncaught exception).
-/

namespace Dedup

/-- Initial fingerprint length, `INITIAL_CHUNK_SIZE = 512` in the source. -/
def INITIAL_CHUNK_SIZE : Nat := 512

/-- Extension block length, `EXTEND_CHUNK_SIZE = 512` in the source. -/
def EXTEND_CHUNK_SIZE : Nat := 512

/-- The bytes of file `p`, or `[]` when the file is unreadable. -/
def contentOf (fs : String → Option (List Nat)) (p : String) : List Nat :=
  (fs p).getD []

/-- One `f.seek(offset); f.read(len)` call inside `extend_common_prefix`:
on success it yields the bytes of the file from `offset`, at most `len` of
them (short or empty near end of file); on an I/O error the source appends
`b""`, modelled by `[]`. -/
def readChunk (fs : String → Option (List Nat)) (p : String)
    (offset len : Nat) : List Nat :=
  match fs p with
  | none => []
  | some content => (content.drop offset).take len

/-- `compute_checksum(file_path, num_bytes)`: digest of the first
`num_bytes` bytes of the file; `""` when reading raises. -/
def compute_checksum (md5hex : List Nat → String)
    (fs : String → Option (List Nat)) (file_path : String)
    (num_bytes : Nat) : String :=
  match fs file_path with
  | none => ""
  | some data => md5hex (data.take num_bytes)

/-- The byte-by-byte scan of a diverging block in `extend_common_prefix`:
starting from index `i`, find the first index at which some chunk of
`others` runs out or disagrees with `first`; if none, the full length of
`first`.  This is the `for i in range(len(first_chunk))` loop with its
`match_in_chunk` bookkeeping. -/
def scanChunk (first : List Nat) (others : List (List Nat)) (i : Nat) : Nat :=
  if h : i < first.length then
    if others.any (fun o => decide (o.length ≤ i) || !(o.getD i 0 == first.getD i 0)) then
      i
    else
      scanChunk first others (i + 1)
  else
    first.length
termination_by first.length - i

/-- The `while new_depth < file_size` loop of `extend_common_prefix`.
`none` models the uncaught `IndexError` of `chunks[0]` on empty `paths`. -/
def extendLoop (fs : String → Option (List Nat)) (paths : List String)
    (file_size new_depth : Nat) : Option Nat :=
  if h : new_depth < file_size then
    if (paths.map fun p => readChunk fs p new_depth EXTEND_CHUNK_SIZE).any
        (fun c => c.length == 0) then
      some new_depth
    else
      match paths.map fun p => readChunk fs p new_depth EXTEND_CHUNK_SIZE with
      | [] => none
      | first_chunk :: rest =>
        if (first_chunk :: rest).all fun c => c == first_chunk then
          if hlt : first_chunk.length < EXTEND_CHUNK_SIZE then
            some (new_depth + first_chunk.length)
          else
            extendLoop fs paths file_size (new_depth + first_chunk.length)
        else
          some (new_depth + scanChunk first_chunk rest 0)
  else
    some new_depth
termination_by file_size - new_depth
decreasing_by
  simp only [EXTEND_CHUNK_SIZE] at hlt
  omega

/-- `extend_common_prefix(paths, current_depth, file_size)`. -/
def extend_common_prefix (fs : String → Option (List Nat)) (paths : List String)
    (current_depth file_size : Nat) : Option Nat :=
  extendLoop fs paths file_size current_depth

/-- A candidate group's mutable record `{"depth": ..., "paths": [...]}`. -/
structure Group where
  depth : Nat
  paths : List String
deriving DecidableEq

/-- A `(checksum, file_size)` bucket key. -/
abbrev FKey := String × Nat

/-- One entry of the insertion-ordered `groups` dict. -/
abbrev Entry := FKey × Group

/-- Dict update `groups[key] = {"depth": depth, "paths": [path]}` /
`groups[key]["paths"].append(path)`: modify the entry holding `key` in
place, or append a fresh entry at the end. -/
def insertFile (groups : List Entry) (key : FKey) (depth : Nat)
    (path : String) : List Entry :=
  match groups with
  | [] => [(key, ⟨depth, [path]⟩)]
  | (k, g) :: rest =>
    if k = key then
      (k, ⟨g.depth, g.paths ++ [path]⟩) :: rest
    else
      (k, g) :: insertFile rest key depth path

/-- The per-file body of `scan_directory`'s loop. -/
def scanStep (md5hex : List Nat → String) (fs : String → Option (List Nat))
    (sz : String → Option Nat) (groups : List Entry)
    (file_path : String) : List Entry :=
  match sz file_path with
  | none => groups
  | some file_size =>
    let depth := min file_size INITIAL_CHUNK_SIZE
    let checksum := compute_checksum md5hex fs file_path depth
    if checksum = "" then
      groups
    else
      insertFile groups (checksum, file_size) depth file_path

/-- `scan_directory`, consuming the walker's file listing. -/
def scan_directory (md5hex : List Nat → String)
    (fs : String → Option (List Nat)) (sz : String → Option Nat)
    (files : List String) : List Entry :=
  files.foldl (scanStep md5hex fs sz) []

/-- An output record of `update_duplicate_groups`. -/
structure DuplicateGroup where
  initial_checksum : String
  file_size : Nat
  common_prefix : Nat
  files : List String
deriving DecidableEq

/-- The per-group body of `update_duplicate_groups`'s loop: the updated
entry (depth possibly overwritten in place) plus the records it appends to
`duplicates`. -/
def processEntry (fs : String → Option (List Nat)) (e : Entry) :
    Option (Entry × List DuplicateGroup) :=
  if e.2.paths.length < 2 then
    some (e, [])
  else
    (if e.2.depth < e.1.2 then
      ( extend_common_prefix fs e.2.paths e.2.depth e.1.2).map
        fun nd => (⟨nd, e.2.paths⟩ : Group)
    else
      some e.2).map
      fun g2 =>
        ((e.1, g2),
         if 1 < g2.paths.length then
           [⟨e.1.1, e.1.2, g2.depth, e.2.paths⟩]
         else
           [])

/-- The `for key, group in groups.items()` loop of
`update_duplicate_groups`: returns the mutated mapping (same entries, same
order, depths possibly overwritten) together with the `duplicates` list. -/
def updateLoop (fs : String → Option (List Nat)) :
    List Entry → Option (List Entry × List DuplicateGroup)
  | [] => some ([], [])
  | e :: rest => do
    let (e2, ds) ← processEntry fs e
    let (es, dss) ← updateLoop fs rest
    pure (e2 :: es, ds ++ dss)

/-- `update_duplicate_groups(groups)`: the returned `duplicates` list. -/
def update_duplicate_groups (fs : String → Option (List Nat))
    (groups : List Entry) : Option (List DuplicateGroup) :=
  (updateLoop fs groups).map (·.2)

/-- What `update_duplicate_groups` leaves behind in a given entry: for a
group of at least two members whose depth does not yet cover the file, the
depth field is overwritten with the extension result; everything else is
untouched. -/
def finalEntry (fs : String → Option (List Nat)) (e : Entry) : Entry :=
  if e.2.paths.length < 2 then
    e
  else if e.2.depth < e.1.2 then
    (e.1, ⟨( extend_common_prefix fs e.2.paths e.2.depth e.1.2).getD e.2.depth,
           e.2.paths⟩)
  else
    e

/-- The record `update_duplicate_groups` emits for a surviving bucket. -/
def finalDup (fs : String → Option (List Nat)) (e : Entry) : DuplicateGroup :=
  ⟨e.1.1, e.1.2, (finalEntry fs e).2.depth, e.2.paths⟩

/-- The whole analysis as one function of the walker listing and the
filesystem observations. -/
def analyze (md5hex : List Nat → String) (fs : String → Option (List Nat))
    (sz : String → Option Nat) (files : List String) :
    Option (List DuplicateGroup) :=
  update_duplicate_groups fs (scan_directory md5hex fs sz files)

/-- Length of the longest common prefix of two byte lists (specification
side, for stating the extension guarantee). -/
def lcp2 : List Nat → List Nat → Nat
  | a :: as, b :: bs => if a = b then lcp2 as bs + 1 else 0
  | _, _ => 0

/-- Length of the longest byte prefix common to `first` and all of `rest`
(specification side). -/
def lcpAll (first : List Nat) (rest : List (List Nat)) : Nat :=
  rest.foldr (fun c acc => min (lcp2 first c) acc) first.length

end Dedup

namespace Dedup

/-! ### Longest-common-prefix facts -/

theorem lcp2_le_left (a b : List Nat) : lcp2 a b ≤ a.length := by
  induction a generalizing b with
  | nil => simp [lcp2]
  | cons x as ih =>
    cases b with
    | nil => simp [lcp2]
    | cons y bs =>
      by_cases hxy : x = y
      · simpa [lcp2, hxy, Nat.succ_le_succ_iff] using ih bs
      · simp [lcp2, hxy]

theorem lcp2_le_right (a b : List Nat) : lcp2 a b ≤ b.length := by
  induction a generalizing b with
  | nil => simp [lcp2]
  | cons x as ih =>
    cases b with
    | nil => simp [lcp2]
    | cons y bs =>
      by_cases hxy : x = y
      · simpa [lcp2, hxy, Nat.succ_le_succ_iff] using ih bs
      · simp [lcp2, hxy]

theorem lcp2_refl (a : List Nat) : lcp2 a a = a.length := by
  induction a with
  | nil => simp [lcp2]
  | cons x as ih => simp [lcp2, ih]

theorem lcp2_getD_eq (a b : List Nat) (i : Nat) (h : i < lcp2 a b) :
    a.getD i 0 = b.getD i 0 := by
  induction a generalizing b i with
  | nil => simp [lcp2] at h
  | cons x as ih =>
    cases b with
    | nil => simp [lcp2] at h
    | cons y bs =>
      by_cases hxy : x = y
      · cases i with
        | zero => simpa using hxy
        | succ j =>
          simp only [lcp2, if_pos hxy] at h
          simpa using ih bs j (by omega)
      · simp [lcp2, hxy] at h

theorem lcp2_div (a b : List Nat) (h : lcp2 a b < a.length) :
    b.length ≤ lcp2 a b ∨ ¬ b.getD (lcp2 a b) 0 = a.getD (lcp2 a b) 0 := by
  induction a generalizing b with
  | nil => simp at h
  | cons x as ih =>
    cases b with
    | nil => simp [lcp2]
    | cons y bs =>
      by_cases hxy : x = y
      · simp only [lcp2, if_pos hxy] at h ⊢
        rcases ih bs (by simpa using Nat.lt_of_succ_lt_succ h) with h1 | h1
        · exact Or.inl (by simpa using Nat.succ_le_succ h1)
        · exact Or.inr (by simpa using h1)
      · simp [lcp2, hxy, Ne.symm hxy]

theorem lcp2_take (a b : List Nat) (k : Nat) :
    lcp2 (a.take k) (b.take k) = min k (lcp2 a b) := by
  induction a generalizing b k with
  | nil => simp [lcp2]
  | cons x as ih =>
    cases b with
    | nil => cases k <;> simp [lcp2]
    | cons y bs =>
      cases k with
      | zero => simp [lcp2]
      | succ j =>
        by_cases hxy : x = y
        · simp only [List.take, lcp2, if_pos hxy, ih bs j]
          omega
        · simp [lcp2, hxy]

theorem lcp2_drop (a b : List Nat) (d : Nat) (h : d ≤ lcp2 a b) :
    lcp2 (a.drop d) (b.drop d) = lcp2 a b - d := by
  induction d generalizing a b with
  | zero => simp
  | succ j ih =>
    cases a with
    | nil => simp [lcp2] at h
    | cons x as =>
      cases b with
      | nil => simp [lcp2] at h
      | cons y bs =>
        by_cases hxy : x = y
        · simp only [lcp2, if_pos hxy] at h ⊢
          simpa [List.drop] using ih as bs (by omega)
        · simp [lcp2, hxy] at h

theorem le_lcp2_of_take_eq (a b : List Nat) (d : Nat) (hd : d ≤ a.length)
    (h : a.take d = b.take d) : d ≤ lcp2 a b := by
  have h1 : lcp2 (a.take d) (b.take d) = min d (lcp2 a b) := lcp2_take a b d
  rw [← h, lcp2_refl, List.length_take] at h1
  omega

theorem eq_of_lcp2_eq_length (a b : List Nat) (h : lcp2 a b = a.length)
    (hlen : a.length = b.length) : a = b := by
  induction a generalizing b with
  | nil => cases b <;> simp_all
  | cons x as ih =>
    cases b with
    | nil => simp at hlen
    | cons y bs =>
      by_cases hxy : x = y
      · simp only [lcp2, if_pos hxy, List.length_cons] at h
        simp only [List.length_cons] at hlen
        exact by rw [hxy, ih bs (by omega) (by omega)]
      · simp [lcp2, hxy] at h

theorem lcp2_eq_of_take_getD (a b : List Nat) (d : Nat) (hd : d ≤ a.length)
    (ht : a.take d = b.take d) (hne : ¬ a.getD d 0 = b.getD d 0) :
    lcp2 a b = d := by
  have h1 : d ≤ lcp2 a b := le_lcp2_of_take_eq a b d hd ht
  have h2 : ¬ d < lcp2 a b := fun hlt => hne (lcp2_getD_eq a b d hlt)
  omega

theorem lcpAll_le_length (f : List Nat) (r : List (List Nat)) :
    lcpAll f r ≤ f.length := by
  induction r with
  | nil => simp [lcpAll]
  | cons c cs ih =>
    simp only [lcpAll, List.foldr_cons] at ih ⊢
    omega

theorem lcpAll_le_lcp2 (f c : List Nat) (r : List (List Nat)) (h : c ∈ r) :
    lcpAll f r ≤ lcp2 f c := by
  induction r with
  | nil => simp at h
  | cons c0 cs ih =>
    simp only [lcpAll, List.foldr_cons]
    rcases List.mem_cons.1 h with h1 | h1
    · subst h1; omega
    · have := ih h1
      simp only [lcpAll] at this
      omega

theorem le_lcpAll (f : List Nat) (r : List (List Nat)) (n : Nat)
    (h0 : n ≤ f.length) (h : ∀ c ∈ r, n ≤ lcp2 f c) : n ≤ lcpAll f r := by
  induction r with
  | nil => simpa [lcpAll]
  | cons c cs ih =>
    simp only [lcpAll, List.foldr_cons]
    have h1 := h c (by simp)
    have h2 := ih fun c hc => h c (List.mem_cons_of_mem _ hc)
    simp only [lcpAll] at h2
    omega

theorem lcpAll_cons (f c : List Nat) (r : List (List Nat)) :
    lcpAll f (c :: r) = min (lcp2 f c) (lcpAll f r) := rfl

end Dedup

namespace Dedup

/-! ### The byte-by-byte scan finds the common prefix of the chunks -/

theorem readChunk_eq (fs : String → Option (List Nat)) (p : String)
    (offset len : Nat) :
    readChunk fs p offset len = ((contentOf fs p).drop offset).take len := by
  unfold readChunk contentOf
  cases fs p <;> simp

theorem lcp2_chunk (a b : List Nat) (d k : Nat) (h : d ≤ lcp2 a b) :
    lcp2 ((a.drop d).take k) ((b.drop d).take k) = min k (lcp2 a b - d) := by
  rw [lcp2_take, lcp2_drop a b d h]

theorem scanChunk_eq_lcpAll_aux (first : List Nat) (others : List (List Nat)) :
    ∀ fuel i, first.length - i ≤ fuel → i ≤ lcpAll first others →
      scanChunk first others i = lcpAll first others := by
  intro fuel
  induction fuel with
  | zero =>
    intro i hf hi
    have h1 := lcpAll_le_length first others
    rw [scanChunk]
    rw [dif_neg (by omega)]
    omega
  | succ n ih =>
    intro i hf hi
    have h1 := lcpAll_le_length first others
    rw [scanChunk]
    by_cases h : i < first.length
    · rw [dif_pos h]
      by_cases hA : (others.any fun o =>
          decide (o.length ≤ i) || !(o.getD i 0 == first.getD i 0)) = true
      · rw [if_pos hA]
        rcases List.any_eq_true.1 hA with ⟨o, ho, hcond⟩
        have hle : lcp2 first o ≤ i := by
          rcases Bool.or_eq_true_iff.1 hcond with hc | hc
          · have := lcp2_le_right first o
            have := of_decide_eq_true hc
            omega
          · have hne : ¬ o.getD i 0 = first.getD i 0 := by
              simpa using hc
            by_contra hgt
            exact hne (lcp2_getD_eq first o i (by omega)).symm
        have := lcpAll_le_lcp2 first o others ho
        omega
      · rw [if_neg hA]
        have hforall : ∀ o ∈ others, i < o.length ∧ o.getD i 0 = first.getD i 0 := by
          intro o ho
          have hcond := List.any_eq_false.1 (Bool.not_eq_true _ ▸ hA) o ho
          constructor
          · by_contra hc
            simp only [Bool.or_eq_true, decide_eq_true_eq] at hcond
            exact hcond (Or.inl (by omega))
          · by_contra hc
            simp only [Bool.or_eq_true, decide_eq_true_eq, Bool.not_eq_true',
              beq_eq_false_iff_ne, ne_eq] at hcond
            exact hcond (Or.inr hc)
        have hstep : i + 1 ≤ lcpAll first others := by
          apply le_lcpAll _ _ _ (by omega)
          intro c hc
          have hcl := hforall c hc
          have hci : i ≤ lcp2 first c := le_trans hi (lcpAll_le_lcp2 first c others hc)
          by_contra hlt
          have hieq : lcp2 first c = i := by omega
          rcases lcp2_div first c (by omega) with hd | hd
          · omega
          · rw [hieq] at hd
            exact hd hcl.2
        exact ih (i + 1) (by omega) hstep
    · rw [dif_neg h]
      omega

theorem scanChunk_eq_lcpAll (first : List Nat) (others : List (List Nat)) :
    scanChunk first others 0 = lcpAll first others :=
  scanChunk_eq_lcpAll_aux first others (first.length + 1) 0 (by omega) (Nat.zero_le _)

end Dedup

namespace Dedup

/-! ### Basic facts about the extension loop -/

theorem extendLoop_ge_aux (fs : String → Option (List Nat)) (paths : List String) :
    ∀ fuel file_size d r, file_size - d ≤ fuel →
      extendLoop fs paths file_size d = some r → d ≤ r := by
  intro fuel
  induction fuel with
  | zero =>
    intro file_size d r hf h
    rw [extendLoop, dif_neg (by omega)] at h
    simp at h
    omega
  | succ n ih =>
    intro file_size d r hf h
    by_cases hd : d < file_size
    · rw [extendLoop, dif_pos hd] at h
      by_cases hA : ((paths.map fun p => readChunk fs p d EXTEND_CHUNK_SIZE).any
          (fun c => c.length == 0)) = true
      · rw [if_pos hA] at h
        simp at h
        omega
      · rw [if_neg hA] at h
        split at h
        · exact absurd h (by simp)
        · split at h
          · split at h
            · simp at h
              omega
            · rename_i hlt
              have h512 : EXTEND_CHUNK_SIZE ≤ _ := Nat.le_of_not_lt hlt
              have := ih file_size _ r
                (by simp only [EXTEND_CHUNK_SIZE] at h512; omega) h
              omega
          · simp at h
            omega
    · rw [extendLoop, dif_neg hd] at h
      simp at h
      omega

theorem extendLoop_ge (fs : String → Option (List Nat)) (paths : List String)
    (file_size d r : Nat) (h : extendLoop fs paths file_size d = some r) :
    d ≤ r :=
  extendLoop_ge_aux fs paths file_size file_size d r (by omega) h

theorem extendLoop_le_aux (fs : String → Option (List Nat)) (p : String)
    (ps : List String) :
    ∀ fuel file_size d r, file_size - d ≤ fuel → d ≤ file_size →
      (contentOf fs p).length ≤ file_size →
      extendLoop fs (p :: ps) file_size d = some r → r ≤ file_size := by
  intro fuel
  induction fuel with
  | zero =>
    intro file_size d r hf hdle hc0 h
    rw [extendLoop, dif_neg (by omega)] at h
    simp at h
    omega
  | succ n ih =>
    intro file_size d r hf hdle hc0 h
    by_cases hd : d < file_size
    · rw [extendLoop, dif_pos hd] at h
      by_cases hA : (((p :: ps).map fun q => readChunk fs q d EXTEND_CHUNK_SIZE).any
          (fun c => c.length == 0)) = true
      · rw [if_pos hA] at h
        simp at h
        omega
      · rw [if_neg hA] at h
        split at h
        · exact absurd h (by simp)
        · rename_i first_chunk rest hchunks
          simp only [List.map_cons, List.cons.injEq] at hchunks
          obtain ⟨hfc, hrest⟩ := hchunks
          have hfclen : first_chunk.length ≤ file_size - d := by
            rw [← hfc, readChunk_eq]
            simp only [List.length_take, List.length_drop]
            omega
          split at h
          · split at h
            · simp at h
              omega
            · rename_i hlt
              exact ih file_size _ r
                (by
                  have h512 : EXTEND_CHUNK_SIZE ≤ _ := Nat.le_of_not_lt hlt
                  simp only [EXTEND_CHUNK_SIZE] at h512
                  omega)
                (by omega) hc0 h
          · simp only [Option.some.injEq] at h
            have hscan : scanChunk first_chunk rest 0 ≤ first_chunk.length := by
              rw [scanChunk_eq_lcpAll]
              exact lcpAll_le_length first_chunk rest
            omega
    · rw [extendLoop, dif_neg hd] at h
      simp at h
      omega

theorem extendLoop_le (fs : String → Option (List Nat)) (p : String)
    (ps : List String) (file_size d r : Nat) (hdle : d ≤ file_size)
    (hc0 : (contentOf fs p).length ≤ file_size)
    (h : extendLoop fs (p :: ps) file_size d = some r) : r ≤ file_size :=
  extendLoop_le_aux fs p ps file_size file_size d r (by omega) hdle hc0 h

theorem extendLoop_isSome_aux (fs : String → Option (List Nat)) (p : String)
    (ps : List String) :
    ∀ fuel file_size d, file_size - d ≤ fuel →
      (extendLoop fs (p :: ps) file_size d).isSome := by
  intro fuel
  induction fuel with
  | zero =>
    intro file_size d hf
    rw [extendLoop, dif_neg (by omega)]
    rfl
  | succ n ih =>
    intro file_size d hf
    by_cases hd : d < file_size
    · rw [extendLoop, dif_pos hd]
      by_cases hA : (((p :: ps).map fun q => readChunk fs q d EXTEND_CHUNK_SIZE).any
          (fun c => c.length == 0)) = true
      · rw [if_pos hA]
        rfl
      · rw [if_neg hA]
        split
        · rename_i habs
          simp at habs
        · rename_i first_chunk rest hchunks
          split
          · split
            · rfl
            · rename_i hlt
              exact ih file_size _
                (by
                  have h512 : EXTEND_CHUNK_SIZE ≤ _ := Nat.le_of_not_lt hlt
                  simp only [EXTEND_CHUNK_SIZE] at h512
                  omega)
          · rfl
    · rw [extendLoop, dif_neg hd]
      rfl

theorem extendLoop_isSome (fs : String → Option (List Nat)) (p : String)
    (ps : List String) (file_size d : Nat) :
    (extendLoop fs (p :: ps) file_size d).isSome :=
  extendLoop_isSome_aux fs p ps file_size file_size d (by omega)

end Dedup

namespace Dedup

/-! ### The extension loop computes the longest common prefix -/

theorem extendLoop_eq_lcpAll_aux (fs : String → Option (List Nat)) (p : String)
    (ps : List String) (file_size : Nat)
    (hlen0 : (contentOf fs p).length = file_size)
    (hlens : ∀ q ∈ ps, (contentOf fs q).length = file_size) :
    ∀ fuel d, file_size - d ≤ fuel →
      d ≤ lcpAll (contentOf fs p) (ps.map (contentOf fs)) →
      extendLoop fs (p :: ps) file_size d =
        some (lcpAll (contentOf fs p) (ps.map (contentOf fs))) := by
  intro fuel
  induction fuel with
  | zero =>
    intro d hf hd
    have h1 := lcpAll_le_length (contentOf fs p) (ps.map (contentOf fs))
    rw [extendLoop, dif_neg (by omega)]
    exact congrArg some (by omega)
  | succ n ih =>
    intro d hf hd
    have hLle := lcpAll_le_length (contentOf fs p) (ps.map (contentOf fs))
    by_cases hdlt : d < file_size
    · -- d ≤ lcp2 between the head content and each other content
      have hql : ∀ q ∈ ps, d ≤ lcp2 (contentOf fs p) (contentOf fs q) := by
        intro q hq
        exact le_trans hd (lcpAll_le_lcp2 _ _ _ (List.mem_map_of_mem _ hq))
      -- no chunk is empty
      have hAny : ¬ ((((p :: ps).map fun q => readChunk fs q d EXTEND_CHUNK_SIZE).any
          fun c => c.length == 0) = true) := by
        simp only [List.any_eq_true, List.mem_map, beq_iff_eq]
        rintro ⟨c, ⟨q, hq, rfl⟩, hlc⟩
        rw [readChunk_eq] at hlc
        simp only [List.length_take, List.length_drop] at hlc
        have hlq : (contentOf fs q).length = file_size := by
          rcases List.mem_cons.1 hq with rfl | hq2
          · exact hlen0
          · exact hlens q hq2
        simp only [EXTEND_CHUNK_SIZE] at hlc
        omega
      rw [extendLoop, dif_pos hdlt, if_neg hAny]
      split
      · rename_i habs
        simp at habs
      · rename_i first_chunk rest hchunks
        simp only [List.map_cons, List.cons.injEq] at hchunks
        obtain ⟨hfc, hrest⟩ := hchunks
        subst hfc hrest
        simp only [readChunk_eq] at *
        -- the length of every chunk
        have hfclen : (((contentOf fs p).drop d).take EXTEND_CHUNK_SIZE).length
            = min EXTEND_CHUNK_SIZE (file_size - d) := by
          simp only [List.length_take, List.length_drop, hlen0]
        have hqlen : ∀ q ∈ ps,
            ((((contentOf fs q).drop d).take EXTEND_CHUNK_SIZE)).length
              = min EXTEND_CHUNK_SIZE (file_size - d) := by
          intro q hq
          simp only [List.length_take, List.length_drop, hlens q hq]
        -- the lcp2 of two chunks in terms of the contents
        have hchq : ∀ q ∈ ps,
            lcp2 (((contentOf fs p).drop d).take EXTEND_CHUNK_SIZE)
                 (((contentOf fs q).drop d).take EXTEND_CHUNK_SIZE)
              = min EXTEND_CHUNK_SIZE
                  (lcp2 (contentOf fs p) (contentOf fs q) - d) := by
          intro q hq
          exact lcp2_chunk _ _ d EXTEND_CHUNK_SIZE (hql q hq)
        by_cases hAll : ((((contentOf fs p).drop d).take EXTEND_CHUNK_SIZE ::
            ps.map fun q => ((contentOf fs q).drop d).take EXTEND_CHUNK_SIZE).all
            fun c => c == ((contentOf fs p).drop d).take EXTEND_CHUNK_SIZE) = true
        · rw [if_pos hAll]
          have heqc : ∀ q ∈ ps,
              ((contentOf fs q).drop d).take EXTEND_CHUNK_SIZE
                = ((contentOf fs p).drop d).take EXTEND_CHUNK_SIZE := by
            intro q hq
            have := List.all_eq_true.1 hAll
              (((contentOf fs q).drop d).take EXTEND_CHUNK_SIZE)
              (List.mem_cons_of_mem _ (List.mem_map_of_mem _ hq))
            simpa using this
          -- for every other content the chunk-level lcp2 is the full chunk
          have hfull : ∀ q ∈ ps,
              min EXTEND_CHUNK_SIZE (lcp2 (contentOf fs p) (contentOf fs q) - d)
                = min EXTEND_CHUNK_SIZE (file_size - d) := by
            intro q hq
            rw [← hchq q hq, heqc q hq, lcp2_refl, hfclen]
          split
          · rename_i hlt
            -- short chunk: end of file reached, the whole file is common
            rw [hfclen] at hlt
            have hLeq : lcpAll (contentOf fs p) (ps.map (contentOf fs)) = file_size := by
              have : file_size ≤ lcpAll (contentOf fs p) (ps.map (contentOf fs)) := by
                apply le_lcpAll _ _ _ (by omega)
                intro c hc
                rcases List.mem_map.1 hc with ⟨q, hq, rfl⟩
                have h1 := hfull q hq
                have h2 := hql q hq
                have h3 : lcp2 (contentOf fs p) (contentOf fs q) ≤ file_size := by
                  have := lcp2_le_left (contentOf fs p) (contentOf fs q)
                  omega
                simp only [EXTEND_CHUNK_SIZE] at h1 hlt
                omega
              omega
            rw [hfclen]
            refine congrArg some ?_
            simp only [EXTEND_CHUNK_SIZE] at *
            omega
          · rename_i hlt
            -- full chunk everywhere: advance by the block size and recurse
            rw [hfclen] at hlt
            have hstep : d + min EXTEND_CHUNK_SIZE (file_size - d)
                ≤ lcpAll (contentOf fs p) (ps.map (contentOf fs)) := by
              apply le_lcpAll _ _ _ (by omega)
              intro c hc
              rcases List.mem_map.1 hc with ⟨q, hq, rfl⟩
              have h1 := hfull q hq
              have h2 := hql q hq
              simp only [EXTEND_CHUNK_SIZE] at h1 hlt ⊢
              omega
            have hrec := ih (d + (((contentOf fs p).drop d).take EXTEND_CHUNK_SIZE).length)
              (by
                rw [hfclen]
                simp only [EXTEND_CHUNK_SIZE] at hlt ⊢
                omega)
              (by rw [hfclen]; exact hstep)
            exact hrec
        · rw [if_neg hAll]
          -- some chunk differs from the head chunk
          have hex : ∃ q ∈ ps,
              ¬ ((contentOf fs q).drop d).take EXTEND_CHUNK_SIZE
                = ((contentOf fs p).drop d).take EXTEND_CHUNK_SIZE := by
            by_contra hcon
            push_neg at hcon
            apply hAll
            simp only [List.all_eq_true, beq_iff_eq]
            intro c hcm
            rcases List.mem_cons.1 hcm with rfl | hcm2
            · rfl
            · rcases List.mem_map.1 hcm2 with ⟨q, hq, rfl⟩
              exact hcon q hq
          obtain ⟨q0, hq0, hne0⟩ := hex
          -- the diverging chunk meets the head chunk strictly before its end
          have hlt0 : lcp2 (((contentOf fs p).drop d).take EXTEND_CHUNK_SIZE)
              (((contentOf fs q0).drop d).take EXTEND_CHUNK_SIZE)
              < min EXTEND_CHUNK_SIZE (file_size - d) := by
            rcases Nat.lt_or_ge (lcp2 (((contentOf fs p).drop d).take EXTEND_CHUNK_SIZE)
              (((contentOf fs q0).drop d).take EXTEND_CHUNK_SIZE))
              (min EXTEND_CHUNK_SIZE (file_size - d)) with h | h
            · exact h
            · exfalso
              apply hne0
              refine (eq_of_lcp2_eq_length _ _ ?_ ?_).symm
              · have h1 := lcp2_le_left (((contentOf fs p).drop d).take EXTEND_CHUNK_SIZE)
                  (((contentOf fs q0).drop d).take EXTEND_CHUNK_SIZE)
                rw [hfclen] at h1 ⊢
                omega
              · rw [hfclen, hqlen q0 hq0]
          rw [scanChunk_eq_lcpAll]
          refine congrArg some ?_
          -- upper bound: d plus the chunk-level lcp is at most the content-level lcp
          have hub : d + lcpAll (((contentOf fs p).drop d).take EXTEND_CHUNK_SIZE)
              (ps.map fun q => ((contentOf fs q).drop d).take EXTEND_CHUNK_SIZE)
              ≤ lcpAll (contentOf fs p) (ps.map (contentOf fs)) := by
            apply le_lcpAll
            · have h1 := lcpAll_le_length
                (((contentOf fs p).drop d).take EXTEND_CHUNK_SIZE)
                (ps.map fun q => ((contentOf fs q).drop d).take EXTEND_CHUNK_SIZE)
              rw [hfclen] at h1
              omega
            · intro c hc
              rcases List.mem_map.1 hc with ⟨q, hq, rfl⟩
              have h1 := lcpAll_le_lcp2
                (((contentOf fs p).drop d).take EXTEND_CHUNK_SIZE)
                (((contentOf fs q).drop d).take EXTEND_CHUNK_SIZE)
                (ps.map fun r => ((contentOf fs r).drop d).take EXTEND_CHUNK_SIZE)
                (List.mem_map_of_mem _ hq)
              have h2 := hchq q hq
              have h3 := hql q hq
              omega
          -- lower bound: the content-level lcp minus d is at most the chunk-level lcp
          have hlb : lcpAll (contentOf fs p) (ps.map (contentOf fs))
              ≤ d + lcpAll (((contentOf fs p).drop d).take EXTEND_CHUNK_SIZE)
                (ps.map fun q => ((contentOf fs q).drop d).take EXTEND_CHUNK_SIZE) := by
            have hLq0 := lcpAll_le_lcp2 (contentOf fs p) (contentOf fs q0)
              (ps.map (contentOf fs)) (List.mem_map_of_mem _ hq0)
            have hch0 := hchq q0 hq0
            have hlbAll : lcpAll (contentOf fs p) (ps.map (contentOf fs)) - d
                ≤ lcpAll (((contentOf fs p).drop d).take EXTEND_CHUNK_SIZE)
                  (ps.map fun q => ((contentOf fs q).drop d).take EXTEND_CHUNK_SIZE) := by
              apply le_lcpAll
              · rw [hfclen]
                omega
              · intro c hc
                rcases List.mem_map.1 hc with ⟨q, hq, rfl⟩
                have h2 := hchq q hq
                have h3 := lcpAll_le_lcp2 (contentOf fs p) (contentOf fs q)
                  (ps.map (contentOf fs)) (List.mem_map_of_mem _ hq)
                omega
            omega
          omega
    · rw [extendLoop, dif_neg hdlt]
      refine congrArg some ?_
      rw [hlen0] at hLle
      omega

theorem extendLoop_eq_lcpAll (fs : String → Option (List Nat)) (p : String)
    (ps : List String) (file_size d : Nat)
    (hlen0 : (contentOf fs p).length = file_size)
    (hlens : ∀ q ∈ ps, (contentOf fs q).length = file_size)
    (hd : d ≤ lcpAll (contentOf fs p) (ps.map (contentOf fs))) :
    extendLoop fs (p :: ps) file_size d =
      some (lcpAll (contentOf fs p) (ps.map (contentOf fs))) :=
  extendLoop_eq_lcpAll_aux fs p ps file_size hlen0 hlens file_size d (by omega) hd

end Dedup

namespace Dedup

/-! ### Characterizing the resolver loop -/

theorem processEntry_eq (fs : String → Option (List Nat)) (e : Entry) :
    processEntry fs e = some (finalEntry fs e,
      if 1 < e.2.paths.length then [finalDup fs e] else []) := by
  unfold processEntry finalDup finalEntry
  by_cases h2 : e.2.paths.length < 2
  · simp only [if_pos h2]
    have hn : ¬ 1 < e.2.paths.length := by omega
    rw [if_neg hn]
  · simp only [if_neg h2]
    by_cases hda : e.2.depth < e.1.2
    · simp only [if_pos hda]
      obtain ⟨p, ps, hpe⟩ : ∃ p ps, e.2.paths = p :: ps := by
        cases hp : e.2.paths with
        | nil => rw [hp] at h2; simp at h2
        | cons a as => exact ⟨a, as, rfl⟩
      rw [hpe]
      unfold extend_common_prefix
      obtain ⟨nd, hnd⟩ := Option.isSome_iff_exists.1
        (extendLoop_isSome fs p ps e.1.2 e.2.depth)
      rw [hnd]
      simp
    · simp only [if_neg hda]
      simp

theorem updateLoop_eq (fs : String → Option (List Nat)) (groups : List Entry) :
    updateLoop fs groups = some (groups.map (finalEntry fs),
      (groups.filter fun e => decide (1 < e.2.paths.length)).map (finalDup fs)) := by
  induction groups with
  | nil => rfl
  | cons e rest ih =>
    rw [updateLoop, processEntry_eq, ih]
    by_cases h : 1 < e.2.paths.length
    · simp [List.filter_cons, h]
    · simp [List.filter_cons, h]

theorem update_duplicate_groups_eq (fs : String → Option (List Nat))
    (groups : List Entry) :
    update_duplicate_groups fs groups =
      some ((groups.filter fun e => decide (1 < e.2.paths.length)).map (finalDup fs)) := by
  unfold update_duplicate_groups
  rw [updateLoop_eq]
  rfl

theorem finalEntry_key (fs : String → Option (List Nat)) (e : Entry) :
    (finalEntry fs e).1 = e.1 := by
  unfold finalEntry
  split
  · rfl
  · split
    · rfl
    · rfl

theorem finalEntry_paths (fs : String → Option (List Nat)) (e : Entry) :
    (finalEntry fs e).2.paths = e.2.paths := by
  unfold finalEntry
  split
  · rfl
  · split
    · rfl
    · rfl

theorem finalEntry_depth_ge (fs : String → Option (List Nat)) (e : Entry) :
    e.2.depth ≤ (finalEntry fs e).2.depth := by
  unfold finalEntry
  split
  · exact le_refl _
  · split
    · rename_i h2 hda
      obtain ⟨p, ps, hpe⟩ : ∃ p ps, e.2.paths = p :: ps := by
        cases hp : e.2.paths with
        | nil => rw [hp] at h2; simp at h2
        | cons a as => exact ⟨a, as, rfl⟩
      rw [hpe]
      unfold extend_common_prefix
      obtain ⟨nd, hnd⟩ := Option.isSome_iff_exists.1
        (extendLoop_isSome fs p ps e.1.2 e.2.depth)
      rw [hnd]
      simpa using extendLoop_ge fs (p :: ps) e.1.2 e.2.depth nd hnd
    · exact le_refl _

end Dedup

namespace Dedup

/-! ### Facts about the grouping scan -/

theorem insertFile_mem (groups : List Entry) (key : FKey) (depth : Nat)
    (path : String) (e : Entry) (he : e ∈ insertFile groups key depth path) :
    e ∈ groups ∨ (e.1 = key ∧ e.2.depth = depth ∧ e.2.paths = [path]) ∨
      (∃ g, (key, g) ∈ groups ∧ e = (key, ⟨g.depth, g.paths ++ [path]⟩)) := by
  induction groups with
  | nil =>
    simp only [insertFile, List.mem_singleton] at he
    subst he
    right
    left
    exact ⟨rfl, rfl, rfl⟩
  | cons kg rest ih =>
    obtain ⟨k, g⟩ := kg
    rw [insertFile] at he
    by_cases hk : k = key
    · rw [if_pos hk] at he
      rcases List.mem_cons.1 he with rfl | hrest
      · right
        right
        exact ⟨g, by rw [hk]; exact List.mem_cons_self _ _, by rw [hk]⟩
      · left
        exact List.mem_cons_of_mem _ hrest
    · rw [if_neg hk] at he
      rcases List.mem_cons.1 he with rfl | hrest
      · left
        exact List.mem_cons_self _ _
      · rcases ih hrest with h | h | ⟨g2, hg2, hee⟩
        · left
          exact List.mem_cons_of_mem _ h
        · right
          left
          exact h
        · right
          right
          exact ⟨g2, List.mem_cons_of_mem _ hg2, hee⟩

theorem foldl_scanStep_inv (md5hex : List Nat → String)
    (fs : String → Option (List Nat)) (sz : String → Option Nat)
    (P : Entry → Prop)
    (hstep : ∀ groups fp, (∀ e ∈ groups, P e) →
      ∀ e ∈ scanStep md5hex fs sz groups fp, P e) :
    ∀ (files : List String) (groups : List Entry), (∀ e ∈ groups, P e) →
      ∀ e ∈ List.foldl (scanStep md5hex fs sz) groups files, P e := by
  intro files
  induction files with
  | nil =>
    intro groups h
    simpa using h
  | cons f rest ih =>
    intro groups h
    rw [List.foldl_cons]
    exact ih _ (hstep groups f h)

theorem scanStep_depth_inv (md5hex : List Nat → String)
    (fs : String → Option (List Nat)) (sz : String → Option Nat)
    (groups : List Entry) (fp : String)
    (h : ∀ e ∈ groups, e.2.depth = min e.1.2 INITIAL_CHUNK_SIZE) :
    ∀ e ∈ scanStep md5hex fs sz groups fp,
      e.2.depth = min e.1.2 INITIAL_CHUNK_SIZE := by
  intro e he
  rw [scanStep] at he
  split at he
  · exact h e he
  · rename_i file_size hsz
    simp only at he
    split at he
    · exact h e he
    · rcases insertFile_mem _ _ _ _ e he with h1 | ⟨hk, hdep, _⟩ | ⟨g, hg, rfl⟩
      · exact h e h1
      · rw [hdep, hk]
      · simpa using h (_, g) hg

theorem scan_directory_depth (md5hex : List Nat → String)
    (fs : String → Option (List Nat)) (sz : String → Option Nat)
    (files : List String) :
    ∀ e ∈ scan_directory md5hex fs sz files,
      e.2.depth = min e.1.2 INITIAL_CHUNK_SIZE := by
  unfold scan_directory
  exact foldl_scanStep_inv md5hex fs sz _
    (fun groups fp h => scanStep_depth_inv md5hex fs sz groups fp h)
    files [] (by simp)

theorem scanStep_paths_inv (md5hex : List Nat → String)
    (fs : String → Option (List Nat)) (sz : String → Option Nat)
    (groups : List Entry) (fp : String)
    (h : ∀ e ∈ groups, ∀ q ∈ e.2.paths, ¬ fs q = none) :
    ∀ e ∈ scanStep md5hex fs sz groups fp, ∀ q ∈ e.2.paths, ¬ fs q = none := by
  intro e he
  rw [scanStep] at he
  split at he
  · exact h e he
  · rename_i file_size hsz
    simp only at he
    split at he
    · exact h e he
    · rename_i hchk
      have hfp : ¬ fs fp = none := by
        intro hnone
        apply hchk
        rw [compute_checksum, hnone]
      rcases insertFile_mem _ _ _ _ e he with h1 | ⟨_, _, hpaths⟩ | ⟨g, hg, rfl⟩
      · exact h e h1
      · rw [hpaths]
        intro q hq
        rw [List.mem_singleton] at hq
        subst hq
        exact hfp
      · intro q hq
        simp only [List.mem_append, List.mem_singleton] at hq
        rcases hq with hq | rfl
        · exact h (_, g) hg q hq
        · exact hfp

theorem scan_directory_paths (md5hex : List Nat → String)
    (fs : String → Option (List Nat)) (sz : String → Option Nat)
    (files : List String) :
    ∀ e ∈ scan_directory md5hex fs sz files, ∀ q ∈ e.2.paths, ¬ fs q = none := by
  unfold scan_directory
  exact foldl_scanStep_inv md5hex fs sz _
    (fun groups fp h => scanStep_paths_inv md5hex fs sz groups fp h)
    files [] (by simp)

theorem scanStep_skip (md5hex : List Nat → String)
    (fs : String → Option (List Nat)) (sz : String → Option Nat)
    (groups : List Entry) (p : String) (hp : fs p = none) :
    scanStep md5hex fs sz groups p = groups := by
  rw [scanStep]
  split
  · rfl
  · simp only
    rw [if_pos]
    rw [compute_checksum, hp]

theorem scan_skip_aux (md5hex : List Nat → String)
    (fs : String → Option (List Nat)) (sz : String → Option Nat)
    (p : String) (hp : fs p = none) :
    ∀ (files : List String) (groups : List Entry),
      List.foldl (scanStep md5hex fs sz) groups files =
        List.foldl (scanStep md5hex fs sz) groups
          (files.filter fun q => decide (¬ q = p)) := by
  intro files
  induction files with
  | nil =>
    intro groups
    rfl
  | cons f rest ih =>
    intro groups
    rw [List.foldl_cons, List.filter_cons]
    by_cases hf : f = p
    · subst hf
      have hdec : (decide (¬ f = f)) = false := by simp
      rw [hdec]
      simp only [Bool.false_eq_true, if_false]
      rw [scanStep_skip md5hex fs sz groups f hp]
      exact ih groups
    · have hdec : (decide (¬ f = p)) = true := by simp [hf]
      rw [hdec]
      simp only [if_true]
      rw [List.foldl_cons]
      exact ih _

end Dedup

namespace Dedup

/-! ### The zero-byte bucket -/

/-- A walker file that counts as a zero-byte file for the analysis: its
reported size is `0` and its bytes are readable. -/
def isZeroFile (fs : String → Option (List Nat)) (sz : String → Option Nat)
    (q : String) : Bool :=
  (sz q == some 0) && (fs q).isSome

/-- The sub-list of `groups` entries keyed with size `0`, as a function of
the zero-byte files inserted so far. -/
def zeroEntryList (h0 : String) (l : List String) : List Entry :=
  if l = [] then [] else [((h0, 0), ⟨0, l⟩)]

theorem insertFile_filter_zero_ne (groups : List Entry) (key : FKey)
    (depth : Nat) (path : String) (hkey : ¬ key.2 = 0) :
    (insertFile groups key depth path).filter (fun e => e.1.2 == 0)
      = groups.filter (fun e => e.1.2 == 0) := by
  induction groups with
  | nil =>
    rw [insertFile]
    have hzf : ((key, (⟨depth, [path]⟩ : Group)).1.2 == 0) = false := by
      simpa using hkey
    simp [List.filter_cons, hzf]
  | cons kg rest ih =>
    obtain ⟨k, g⟩ := kg
    rw [insertFile]
    by_cases hk : k = key
    · rw [if_pos hk]
      rw [List.filter_cons, List.filter_cons]
      have h1 : (((k, (⟨g.depth, g.paths ++ [path]⟩ : Group)).1.2 == 0)) = false := by
        simp only [hk]
        simpa using hkey
      rw [h1]
      simp
    · rw [if_neg hk]
      rw [List.filter_cons, List.filter_cons, ih]

theorem insertFile_filter_zero_new (groups : List Entry) (h0 : String)
    (depth : Nat) (path : String)
    (hz : groups.filter (fun e => e.1.2 == 0) = []) :
    (insertFile groups (h0, 0) depth path).filter (fun e => e.1.2 == 0)
      = [((h0, 0), ⟨depth, [path]⟩)] := by
  induction groups with
  | nil => simp [insertFile]
  | cons kg rest ih =>
    obtain ⟨k, g⟩ := kg
    rw [List.filter_cons] at hz
    by_cases hzk : (((k, g).1.2 == 0) = true)
    · rw [if_pos hzk] at hz
      simp at hz
    · rw [if_neg hzk] at hz
      have hk : ¬ k = (h0, 0) := by
        intro hkk
        rw [hkk] at hzk
        simp at hzk
      rw [insertFile, if_neg hk, List.filter_cons, if_neg hzk]
      exact ih hz

theorem insertFile_filter_zero_app (groups : List Entry) (h0 : String)
    (g0 : Group) (depth : Nat) (path : String)
    (hz : groups.filter (fun e => e.1.2 == 0) = [((h0, 0), g0)]) :
    (insertFile groups (h0, 0) depth path).filter (fun e => e.1.2 == 0)
      = [((h0, 0), ⟨g0.depth, g0.paths ++ [path]⟩)] := by
  induction groups with
  | nil => simp at hz
  | cons kg rest ih =>
    obtain ⟨k, g⟩ := kg
    rw [List.filter_cons] at hz
    by_cases hzk : (((k, g).1.2 == 0) = true)
    · rw [if_pos hzk] at hz
      rw [List.cons_eq_cons] at hz
      obtain ⟨hhead, hrest⟩ := hz
      have hk : k = (h0, 0) := congrArg Prod.fst hhead
      have hg : g = g0 := congrArg Prod.snd hhead
      subst hg
      rw [insertFile, if_pos hk, List.filter_cons]
      have hzk2 : (((k, (⟨g.depth, g.paths ++ [path]⟩ : Group)).1.2 == 0) = true) := by
        simpa using hzk
      rw [if_pos hzk2, hrest, hk]
    · rw [if_neg hzk] at hz
      have hk : ¬ k = (h0, 0) := by
        intro hkk
        rw [hkk] at hzk
        simp at hzk
      rw [insertFile, if_neg hk, List.filter_cons, if_neg hzk]
      exact ih hz

theorem scanStep_zero (md5hex : List Nat → String)
    (fs : String → Option (List Nat)) (sz : String → Option Nat)
    (hh0 : ¬ md5hex [] = "") (groups : List Entry) (fp : String)
    (l0 : List String)
    (hz : groups.filter (fun e => e.1.2 == 0) = zeroEntryList (md5hex []) l0) :
    (scanStep md5hex fs sz groups fp).filter (fun e => e.1.2 == 0)
      = zeroEntryList (md5hex [])
          (l0 ++ if isZeroFile fs sz fp then [fp] else []) := by
  rw [scanStep]
  split
  · rename_i hsz
    have hzf : isZeroFile fs sz fp = false := by
      simp [isZeroFile, hsz]
    rw [hzf]
    simpa using hz
  · rename_i file_size hsz
    simp only
    split
    · rename_i hchk
      have hzf : isZeroFile fs sz fp = false := by
        rw [isZeroFile, hsz]
        cases hfs : fs fp with
        | none => simp
        | some c =>
          simp only [Option.isSome_some, Bool.and_true, beq_eq_false_iff_ne, ne_eq,
            Option.some.injEq]
          intro h0eq
          apply hh0
          rw [← hchk]
          unfold compute_checksum
          rw [hfs, h0eq]
          simp
      rw [hzf]
      simpa using hz
    · rename_i hchk
      by_cases hz0 : file_size = 0
      · subst hz0
        cases hfs : fs fp with
        | none =>
          exfalso
          apply hchk
          unfold compute_checksum
          rw [hfs]
        | some c =>
          have hcs : compute_checksum md5hex fs fp (min 0 INITIAL_CHUNK_SIZE)
              = md5hex [] := by
            unfold compute_checksum
            rw [hfs]
            simp
          have hdep : min 0 INITIAL_CHUNK_SIZE = 0 := by simp
          rw [hcs, hdep]
          have hzf : isZeroFile fs sz fp = true := by
            rw [isZeroFile, hsz, hfs]
            simp
          rw [hzf]
          by_cases hl0 : l0 = []
          · subst hl0
            rw [zeroEntryList, if_pos rfl] at hz
            rw [insertFile_filter_zero_new groups (md5hex []) 0 fp hz]
            simp [zeroEntryList]
          · rw [zeroEntryList, if_neg hl0] at hz
            rw [insertFile_filter_zero_app groups (md5hex []) ⟨0, l0⟩ 0 fp hz]
            simp [zeroEntryList]
      · rw [insertFile_filter_zero_ne groups _ _ fp (by simpa using hz0)]
        have hzf : isZeroFile fs sz fp = false := by
          simp [isZeroFile, hsz, hz0]
        rw [hzf]
        simpa using hz

theorem scan_zero_aux (md5hex : List Nat → String)
    (fs : String → Option (List Nat)) (sz : String → Option Nat)
    (hh0 : ¬ md5hex [] = "") :
    ∀ (files : List String) (groups : List Entry) (l0 : List String),
      groups.filter (fun e => e.1.2 == 0) = zeroEntryList (md5hex []) l0 →
      (List.foldl (scanStep md5hex fs sz) groups files).filter (fun e => e.1.2 == 0)
        = zeroEntryList (md5hex []) (l0 ++ files.filter (isZeroFile fs sz)) := by
  intro files
  induction files with
  | nil =>
    intro groups l0 hz
    simpa using hz
  | cons f rest ih =>
    intro groups l0 hz
    rw [List.foldl_cons, List.filter_cons]
    have hstep := scanStep_zero md5hex fs sz hh0 groups f l0 hz
    have hrec := ih (scanStep md5hex fs sz groups f)
      (l0 ++ if isZeroFile fs sz f then [f] else []) hstep
    rw [hrec]
    by_cases hf : isZeroFile fs sz f = true
    · rw [if_pos hf, if_pos hf]
      simp
    · rw [if_neg hf, if_neg hf]
      simp

theorem scan_directory_zero (md5hex : List Nat → String)
    (fs : String → Option (List Nat)) (sz : String → Option Nat)
    (files : List String) (hh0 : ¬ md5hex [] = "") :
    (scan_directory md5hex fs sz files).filter (fun e => e.1.2 == 0)
      = zeroEntryList (md5hex []) (files.filter (isZeroFile fs sz)) := by
  unfold scan_directory
  have h := scan_zero_aux md5hex fs sz hh0 files [] []
    (by simp [zeroEntryList])
  simpa using h

end Dedup

namespace Dedup

/-! ### Wrappers connecting contents, agreement and the extension result -/

theorem contentOf_eq (fs : String → Option (List Nat)) (p : String)
    (c : List Nat) (h : fs p = some c) : contentOf fs p = c := by
  rw [contentOf, h]
  rfl

theorem take_agree_le_lcpAll (fs : String → Option (List Nat)) (p : String)
    (ps : List String) (d file_size : Nat)
    (hlen0 : (contentOf fs p).length = file_size)
    (hd : d ≤ file_size)
    (hagree : ∀ q ∈ ps, (contentOf fs q).take d = (contentOf fs p).take d) :
    d ≤ lcpAll (contentOf fs p) (ps.map (contentOf fs)) := by
  apply le_lcpAll _ _ _ (by omega)
  intro c hc
  rcases List.mem_map.1 hc with ⟨q, hq, rfl⟩
  exact le_lcp2_of_take_eq _ _ d (by omega) (hagree q hq).symm

theorem lcpAll_full_eq (fs : String → Option (List Nat)) (p : String)
    (ps : List String) (file_size : Nat)
    (hlen0 : (contentOf fs p).length = file_size)
    (hlens : ∀ q ∈ ps, (contentOf fs q).length = file_size)
    (hfull : lcpAll (contentOf fs p) (ps.map (contentOf fs)) = file_size) :
    ∀ q ∈ p :: ps, ∀ r ∈ p :: ps, contentOf fs q = contentOf fs r := by
  have hqp : ∀ q ∈ p :: ps, contentOf fs q = contentOf fs p := by
    intro q hq
    rcases List.mem_cons.1 hq with rfl | hq2
    · rfl
    · have h1 := lcpAll_le_lcp2 (contentOf fs p) (contentOf fs q)
        (ps.map (contentOf fs)) (List.mem_map_of_mem _ hq2)
      have h2 := lcp2_le_left (contentOf fs p) (contentOf fs q)
      exact (eq_of_lcp2_eq_length _ _ (by omega) (by rw [hlen0, hlens q hq2])).symm
  intro q hq r hr
  rw [hqp q hq, hqp r hr]

theorem extend_lcpAll (fs : String → Option (List Nat)) (p : String)
    (ps : List String) (current_depth file_size : Nat)
    (hall : ∀ q ∈ p :: ps, ∃ c, fs q = some c ∧ c.length = file_size)
    (hagree : ∀ q ∈ p :: ps, (contentOf fs q).take current_depth
      = (contentOf fs p).take current_depth)
    (hd : current_depth ≤ file_size) :
    extend_common_prefix fs (p :: ps) current_depth file_size
      = some (lcpAll (contentOf fs p) (ps.map (contentOf fs))) := by
  have hlen0 : (contentOf fs p).length = file_size := by
    obtain ⟨c, hc, hcl⟩ := hall p (List.mem_cons_self _ _)
    rw [contentOf_eq fs p c hc]
    exact hcl
  have hlens : ∀ q ∈ ps, (contentOf fs q).length = file_size := by
    intro q hq
    obtain ⟨c, hc, hcl⟩ := hall q (List.mem_cons_of_mem _ hq)
    rw [contentOf_eq fs q c hc]
    exact hcl
  unfold extend_common_prefix
  exact extendLoop_eq_lcpAll fs p ps file_size current_depth hlen0 hlens
    (take_agree_le_lcpAll fs p ps current_depth file_size hlen0 hd
      (fun q hq => hagree q (List.mem_cons_of_mem _ hq)))

end Dedup

namespace Dedup

theorem finalEntry_depth_full (fs : String → Option (List Nat)) (e : Entry)
    (h2 : 1 < e.2.paths.length)
    (he1 : ∀ q ∈ e.2.paths, ∃ c, fs q = some c ∧ c.length = e.1.2)
    (he2 : ∀ q ∈ e.2.paths, ∀ r ∈ e.2.paths,
      (contentOf fs q).take e.2.depth = (contentOf fs r).take e.2.depth)
    (he3 : e.2.depth ≤ e.1.2)
    (hfull : (finalEntry fs e).2.depth = e.1.2) :
    ∀ q ∈ e.2.paths, ∀ r ∈ e.2.paths, contentOf fs q = contentOf fs r := by
  obtain ⟨p0, ps0, hpe⟩ : ∃ p0 ps0, e.2.paths = p0 :: ps0 := by
    cases hp : e.2.paths with
    | nil => rw [hp] at h2; simp at h2
    | cons a as => exact ⟨a, as, rfl⟩
  have hlen0 : (contentOf fs p0).length = e.1.2 := by
    obtain ⟨c, hc, hcl⟩ := he1 p0 (by rw [hpe]; exact List.mem_cons_self _ _)
    rw [contentOf_eq fs p0 c hc]
    exact hcl
  have hlens : ∀ q ∈ ps0, (contentOf fs q).length = e.1.2 := by
    intro q hq
    obtain ⟨c, hc, hcl⟩ := he1 q (by rw [hpe]; exact List.mem_cons_of_mem _ hq)
    rw [contentOf_eq fs q c hc]
    exact hcl
  by_cases hda : e.2.depth < e.1.2
  · have hext : extend_common_prefix fs e.2.paths e.2.depth e.1.2
        = some (lcpAll (contentOf fs p0) (ps0.map (contentOf fs))) := by
      rw [hpe]
      apply extend_lcpAll fs p0 ps0 e.2.depth e.1.2
      · intro q hq
        exact he1 q (by rw [hpe]; exact hq)
      · intro q hq
        exact he2 q (by rw [hpe]; exact hq) p0 (by rw [hpe]; exact List.mem_cons_self _ _)
      · exact he3
    have hfed : (finalEntry fs e).2.depth
        = lcpAll (contentOf fs p0) (ps0.map (contentOf fs)) := by
      rw [finalEntry, if_neg (by omega), if_pos hda, hext]
      rfl
    rw [hfed] at hfull
    intro q hq r hr
    exact lcpAll_full_eq fs p0 ps0 e.1.2 hlen0 hlens hfull
      q (by rw [← hpe]; exact hq) r (by rw [← hpe]; exact hr)
  · have hfe : finalEntry fs e = e := by
      rw [finalEntry, if_neg (by omega), if_neg hda]
    rw [hfe] at hfull
    have hdeq : e.2.depth = e.1.2 := hfull
    intro q hq r hr
    have htq : (contentOf fs q).take e.2.depth = contentOf fs q := by
      obtain ⟨c, hc, hcl⟩ := he1 q hq
      rw [contentOf_eq fs q c hc, hdeq, ← hcl, List.take_length]
    have htr : (contentOf fs r).take e.2.depth = contentOf fs r := by
      obtain ⟨c, hc, hcl⟩ := he1 r hr
      rw [contentOf_eq fs r c hc, hdeq, ← hcl, List.take_length]
    rw [← htq, ← htr]
    exact he2 q hq r hr

/-- C1: for a non-empty list of paths whose files all have exactly
`file_size` bytes and agree on their first `current_depth` bytes
(`current_depth ≤ file_size`), `extend_common_prefix`, run without I/O
errors, returns exactly the length of the longest byte prefix common to all
listed files, capped at `file_size`; consequently every emitted
`DuplicateGroup` with `common_prefix = file_size` has every pair of member
files byte-for-byte identical over their full length. -/
theorem extend_common_prefix_exact (fs : String → Option (List Nat)) :
    (∀ (p : String) (ps : List String) (current_depth file_size : Nat),
      (∀ q ∈ p :: ps, ∃ c, fs q = some c ∧ c.length = file_size) →
      (∀ q ∈ p :: ps, (contentOf fs q).take current_depth
        = (contentOf fs p).take current_depth) →
      current_depth ≤ file_size →
      extend_common_prefix fs (p :: ps) current_depth file_size
          = some (lcpAll (contentOf fs p) (ps.map (contentOf fs)))
        ∧ lcpAll (contentOf fs p) (ps.map (contentOf fs)) ≤ file_size
        ∧ (lcpAll (contentOf fs p) (ps.map (contentOf fs)) = file_size →
            ∀ q ∈ p :: ps, ∀ r ∈ p :: ps, contentOf fs q = contentOf fs r))
    ∧ (∀ (groups : List Entry) (dups : List DuplicateGroup),
        (∀ e ∈ groups,
          (∀ q ∈ e.2.paths, ∃ c, fs q = some c ∧ c.length = e.1.2) ∧
          (∀ q ∈ e.2.paths, ∀ r ∈ e.2.paths,
            (contentOf fs q).take e.2.depth = (contentOf fs r).take e.2.depth) ∧
          e.2.depth ≤ e.1.2) →
        update_duplicate_groups fs groups = some dups →
        ∀ dg ∈ dups, dg.common_prefix = dg.file_size →
          ∀ q ∈ dg.files, ∀ r ∈ dg.files, contentOf fs q = contentOf fs r) := by
  constructor
  · intro p ps current_depth file_size hall hagree hd
    have hlen0 : (contentOf fs p).length = file_size := by
      obtain ⟨c, hc, hcl⟩ := hall p (List.mem_cons_self _ _)
      rw [contentOf_eq fs p c hc]
      exact hcl
    have hlens : ∀ q ∈ ps, (contentOf fs q).length = file_size := by
      intro q hq
      obtain ⟨c, hc, hcl⟩ := hall q (List.mem_cons_of_mem _ hq)
      rw [contentOf_eq fs q c hc]
      exact hcl
    refine ⟨extend_lcpAll fs p ps current_depth file_size hall hagree hd, ?_, ?_⟩
    · have := lcpAll_le_length (contentOf fs p) (ps.map (contentOf fs))
      omega
    · intro hfull
      exact lcpAll_full_eq fs p ps file_size hlen0 hlens hfull
  · intro groups dups hgroups hupd dg hdg hfullcp q hq r hr
    rw [update_duplicate_groups_eq] at hupd
    have hdups : dups = (groups.filter fun e => decide (1 < e.2.paths.length)).map
        (finalDup fs) := by
      exact (Option.some.injEq _ _ ▸ hupd).symm
    rw [hdups] at hdg
    rcases List.mem_map.1 hdg with ⟨e, hef, rfl⟩
    have hmem := List.mem_filter.1 hef
    have h2 : 1 < e.2.paths.length := by simpa using hmem.2
    obtain ⟨he1, he2, he3⟩ := hgroups e hmem.1
    exact finalEntry_depth_full fs e h2 he1 he2 he3 hfullcp q hq r hr

/-- Witness for C1 at a concrete input: files `a = [1,2,3]` and
`b = [1,2,9]` of size 3 agreeing on their first byte; the extension from
depth 1 returns the exact common prefix length 2. -/
theorem extend_common_prefix_exact_witness :
    extend_common_prefix
      (fun q => if q = "b" then some [1, 2, 9] else some [1, 2, 3])
      ["a", "b"] 1 3 = some 2 := by
  have h := ( extend_common_prefix_exact
    (fun q => if q = "b" then some [1, 2, 9] else some [1, 2, 3])).1
    "a" ["b"] 1 3
    (by
      intro q hq
      rcases List.mem_cons.1 hq with rfl | hq2
      · exact ⟨[1, 2, 3], by decide, by decide⟩
      · rcases List.mem_cons.1 hq2 with rfl | hq3
        · exact ⟨[1, 2, 9], by decide, by decide⟩
        · simp at hq3)
    (by
      intro q hq
      rcases List.mem_cons.1 hq with rfl | hq2
      · rfl
      · rcases List.mem_cons.1 hq2 with rfl | hq3
        · decide
        · simp at hq3)
    (by decide)
  exact h.1.trans (by decide)

end Dedup

namespace Dedup

/-- A filesystem where file `a` holds 512 zero bytes and file `b` holds
only 5: at offset 0 member `b` yields a short, non-empty read while
member `a` fills the block. -/
def fsShort : String → Option (List Nat) := fun q =>
  if q = "b" then some (List.replicate 5 0) else some (List.replicate 512 0)

/-- C2 counterexample: at offset 0 member `b` yields a short
(5-byte, non-empty) read where member `a` yields a full 512-byte read, yet
`extend_common_prefix` returns 5 — it advances the depth by the matching
bytes of that block instead of returning the block-start depth 0 the claim
predicts. -/
theorem short_read_counterexample :
    ((readChunk fsShort "b" 0 EXTEND_CHUNK_SIZE).length < EXTEND_CHUNK_SIZE
      ∧ ¬ readChunk fsShort "b" 0 EXTEND_CHUNK_SIZE = []
      ∧ (readChunk fsShort "a" 0 EXTEND_CHUNK_SIZE).length = EXTEND_CHUNK_SIZE)
    ∧ extend_common_prefix fsShort ["a", "b"] 0 512 = some 5
    ∧ ¬ (5 : Nat) = 0 := by
  refine ⟨⟨by decide, by decide, by decide⟩, ?_, by decide⟩
  unfold extend_common_prefix
  rw [extendLoop, dif_pos (by norm_num)]
  have hmap : (["a", "b"].map fun p => readChunk fsShort p 0 EXTEND_CHUNK_SIZE)
      = [List.replicate 512 0, List.replicate 5 0] := by decide
  rw [hmap, if_neg (by decide)]
  split
  · rename_i habs
    exact absurd habs (by decide)
  · rename_i first_chunk rest hchunks
    simp only [List.cons.injEq] at hchunks
    obtain ⟨hfc, hrest⟩ := hchunks
    subst hfc hrest
    rw [if_neg (by decide)]
    rw [scanChunk_eq_lcpAll]
    decide

/-- C2 (amended): when a member yields an empty read at the current offset,
extension stops and returns the depth at the start of that block; when a
member yields a short but non-empty read where another member fills the
block, extension stops within that block, but only after advancing the
depth by the number of initially matching bytes — at most the short read's
length — rather than returning the block-start depth. -/
theorem short_or_empty_read_stops (fs : String → Option (List Nat))
    (paths : List String) (current_depth file_size : Nat)
    (hd : current_depth < file_size) :
    ((∃ q ∈ paths, readChunk fs q current_depth EXTEND_CHUNK_SIZE = []) →
      extend_common_prefix fs paths current_depth file_size = some current_depth)
    ∧ (∀ q ∈ paths, ∀ r ∈ paths,
        0 < (readChunk fs q current_depth EXTEND_CHUNK_SIZE).length →
        (readChunk fs q current_depth EXTEND_CHUNK_SIZE).length < EXTEND_CHUNK_SIZE →
        (readChunk fs r current_depth EXTEND_CHUNK_SIZE).length = EXTEND_CHUNK_SIZE →
        ∃ res, extend_common_prefix fs paths current_depth file_size = some res
          ∧ current_depth ≤ res
          ∧ res ≤ current_depth
              + (readChunk fs q current_depth EXTEND_CHUNK_SIZE).length) := by
  constructor
  · rintro ⟨q, hq, hqe⟩
    unfold extend_common_prefix
    rw [extendLoop, dif_pos hd]
    rw [if_pos]
    apply List.any_eq_true.2
    exact ⟨readChunk fs q current_depth EXTEND_CHUNK_SIZE,
      List.mem_map_of_mem _ hq, by rw [hqe]; rfl⟩
  · intro q hq r hr hq0 hqs hrf
    unfold extend_common_prefix
    rw [extendLoop, dif_pos hd]
    by_cases hA : ((paths.map fun p => readChunk fs p current_depth EXTEND_CHUNK_SIZE).any
        fun c => c.length == 0) = true
    · rw [if_pos hA]
      exact ⟨current_depth, rfl, le_refl _, Nat.le_add_right _ _⟩
    · rw [if_neg hA]
      have hqmem : readChunk fs q current_depth EXTEND_CHUNK_SIZE
          ∈ paths.map fun p => readChunk fs p current_depth EXTEND_CHUNK_SIZE :=
        List.mem_map_of_mem _ hq
      have hrmem : readChunk fs r current_depth EXTEND_CHUNK_SIZE
          ∈ paths.map fun p => readChunk fs p current_depth EXTEND_CHUNK_SIZE :=
        List.mem_map_of_mem _ hr
      split
      · rename_i habs
        rw [habs] at hqmem
        simp at hqmem
      · rename_i first_chunk rest hchunks
        rw [hchunks] at hqmem hrmem
        by_cases hAll : (((first_chunk :: rest).all fun c => c == first_chunk) = true)
        · exfalso
          have hq1 : readChunk fs q current_depth EXTEND_CHUNK_SIZE = first_chunk := by
            have := List.all_eq_true.1 hAll _ hqmem
            simpa using this
          have hr1 : readChunk fs r current_depth EXTEND_CHUNK_SIZE = first_chunk := by
            have := List.all_eq_true.1 hAll _ hrmem
            simpa using this
          rw [hq1] at hqs
          rw [hr1] at hrf
          omega
        · rw [if_neg hAll, scanChunk_eq_lcpAll]
          refine ⟨current_depth + lcpAll first_chunk rest, rfl, Nat.le_add_right _ _, ?_⟩
          have hb : lcpAll first_chunk rest
              ≤ (readChunk fs q current_depth EXTEND_CHUNK_SIZE).length := by
            rcases List.mem_cons.1 hqmem with hqh | hqt
            · rw [← hqh]
              exact lcpAll_le_length _ _
            · have h1 := lcpAll_le_lcp2 first_chunk _ rest hqt
              have h2 := lcp2_le_right first_chunk
                (readChunk fs q current_depth EXTEND_CHUNK_SIZE)
              omega
          omega

/-- Witness for the amended C2 at concrete inputs: an empty read ends the
extension at the block-start depth 0, and the short-read case stops within
the block, bounded by the short member's read length. -/
theorem short_or_empty_read_stops_witness :
    extend_common_prefix
        (fun q => if q = "b" then some [] else some (List.replicate 512 0))
        ["a", "b"] 0 512 = some 0
    ∧ ∃ res, extend_common_prefix fsShort ["a", "b"] 0 512 = some res
        ∧ 0 ≤ res ∧ res ≤ 0 + (readChunk fsShort "b" 0 EXTEND_CHUNK_SIZE).length := by
  constructor
  · exact (short_or_empty_read_stops
      (fun q => if q = "b" then some [] else some (List.replicate 512 0))
      ["a", "b"] 0 512 (by norm_num)).1 ⟨"b", by simp, by decide⟩
  · exact (short_or_empty_read_stops fsShort ["a", "b"] 0 512 (by norm_num)).2
      "b" (by simp) "a" (by simp) (by decide) (by decide) (by decide)

/-- C3: files A and B of 2000 identical bytes and C identical to them up to
byte offset 1500 but differing there (so all three share the same initial
512 bytes and one initial bucket of depth 512): the analysis reports the
whole bucket as a single DuplicateGroup with common_prefix = 1500, not a
re-partitioned {B,C} subgroup with A dropped. -/
theorem bucket_not_repartitioned (fs : String → Option (List Nat))
    (A B C chk : String) (cA cB cC : List Nat)
    (hA : fs A = some cA) (hB : fs B = some cB) (hC : fs C = some cC)
    (hlA : cA.length = 2000) (hlB : cB.length = 2000) (hlC : cC.length = 2000)
    (hAB : cA = cB)
    (hACt : cA.take 1500 = cC.take 1500)
    (hACd : ¬ cA.getD 1500 0 = cC.getD 1500 0) :
    update_duplicate_groups fs [((chk, 2000), ⟨512, [A, B, C]⟩)]
      = some [⟨chk, 2000, 1500, [A, B, C]⟩] := by
  have hcA := contentOf_eq fs A cA hA
  have hcB := contentOf_eq fs B cB hB
  have hcC := contentOf_eq fs C cC hC
  have h2 : lcp2 cA cC = 1500 :=
    lcp2_eq_of_take_getD cA cC 1500 (by omega) hACt hACd
  have h1 : lcp2 cA cB = 2000 := by
    rw [← hAB, lcp2_refl, hlA]
  have hlcp : lcpAll cA [cB, cC] = 1500 := by
    rw [lcpAll_cons, lcpAll_cons]
    have hnil : lcpAll cA [] = 2000 := by
      rw [lcpAll, List.foldr_nil, hlA]
    rw [hnil, h1, h2]
    omega
  have hext : extend_common_prefix fs [A, B, C] 512 2000 = some 1500 := by
    have h := extend_lcpAll fs A [B, C] 512 2000
      (by
        intro q hq
        rcases List.mem_cons.1 hq with rfl | hq2
        · exact ⟨cA, hA, hlA⟩
        · rcases List.mem_cons.1 hq2 with rfl | hq3
          · exact ⟨cB, hB, hlB⟩
          · rcases List.mem_cons.1 hq3 with rfl | hq4
            · exact ⟨cC, hC, hlC⟩
            · simp at hq4)
      (by
        intro q hq
        rcases List.mem_cons.1 hq with rfl | hq2
        · rfl
        · rcases List.mem_cons.1 hq2 with rfl | hq3
          · rw [hcB, hcA, hAB]
          · rcases List.mem_cons.1 hq3 with rfl | hq4
            · rw [hcC, hcA]
              have hq512 : (512 : Nat) ≤ 1500 := by omega
              calc cC.take 512 = (cC.take 1500).take 512 := by
                    rw [List.take_take]
                    norm_num
                _ = (cA.take 1500).take 512 := by rw [hACt]
                _ = cA.take 512 := by
                    rw [List.take_take]
                    norm_num
            · simp at hq4)
      (by omega)
    rw [hcA, List.map_cons, List.map_cons, List.map_nil, hcB, hcC] at h
    rw [h, hlcp]
  rw [update_duplicate_groups_eq]
  refine congrArg some ?_
  have hfe : (finalEntry fs ((chk, 2000), ⟨512, [A, B, C]⟩)).2.depth = 1500 := by
    rw [finalEntry, if_neg (by simp), if_pos (by norm_num)]
    dsimp only
    rw [hext]
    rfl
  have hfd : finalDup fs ((chk, 2000), ⟨512, [A, B, C]⟩)
      = ⟨chk, 2000, 1500, [A, B, C]⟩ := by
    rw [finalDup, hfe]
  rw [List.filter_cons, if_pos (by simp), List.filter_nil, List.map_cons,
    List.map_nil, hfd]

/-- Witness for C3 at a concrete input: A and B are 2000 zero bytes, C has
a 1 at offset 1500; the single bucket is reported whole with
common_prefix 1500. -/
theorem bucket_not_repartitioned_witness :
    update_duplicate_groups
      (fun q => if q = "C" then some (List.replicate 1500 0 ++ 1 :: List.replicate 499 0)
                else some (List.replicate 2000 0))
      [(("chk", 2000), ⟨512, ["A", "B", "C"]⟩)]
      = some [⟨"chk", 2000, 1500, ["A", "B", "C"]⟩] := by
  apply bucket_not_repartitioned _ "A" "B" "C" "chk"
    (List.replicate 2000 0) (List.replicate 2000 0)
    (List.replicate 1500 0 ++ 1 :: List.replicate 499 0)
  · show (if ("A" : String) = "C"
        then some (List.replicate 1500 0 ++ 1 :: List.replicate 499 0)
        else some (List.replicate 2000 0)) = some (List.replicate 2000 0)
    rw [if_neg (by decide)]
  · show (if ("B" : String) = "C"
        then some (List.replicate 1500 0 ++ 1 :: List.replicate 499 0)
        else some (List.replicate 2000 0)) = some (List.replicate 2000 0)
    rw [if_neg (by decide)]
  · show (if ("C" : String) = "C"
        then some (List.replicate 1500 0 ++ 1 :: List.replicate 499 0)
        else some (List.replicate 2000 0))
      = some (List.replicate 1500 0 ++ 1 :: List.replicate 499 0)
    rw [if_pos rfl]
  · rw [List.length_replicate]
  · rw [List.length_replicate]
  · rw [List.length_append, List.length_replicate, List.length_cons,
      List.length_replicate]
  · rfl
  · rw [List.take_replicate, List.take_left']
    · rw [Nat.min_def]
      norm_num
    · rw [List.length_replicate]
  · intro h
    rw [List.getD_eq_getElem?_getD, List.getElem?_replicate] at h
    rw [List.getD_append_right] at h
    · rw [List.length_replicate] at h
      norm_num [List.getD_cons_zero] at h
    · rw [List.length_replicate]

end Dedup

namespace Dedup

/-- C4: `update_duplicate_groups` emits exactly one `DuplicateGroup` per
initial bucket with at least 2 members — carrying the original fingerprint
digest, the file size, the final depth, and the member paths — and nothing
for smaller buckets, so a file whose (checksum, size) key is unique never
appears in any output group. -/
theorem resolver_emits_groups (fs : String → Option (List Nat))
    (groups : List Entry) :
    update_duplicate_groups fs groups
        = some ((groups.filter fun e => decide (1 < e.2.paths.length)).map (finalDup fs))
    ∧ (∀ e ∈ groups, 1 < e.2.paths.length →
        finalDup fs e = ⟨e.1.1, e.1.2, (finalEntry fs e).2.depth, e.2.paths⟩)
    ∧ (∀ dups, update_duplicate_groups fs groups = some dups →
        ∀ p : String, (∀ e ∈ groups, p ∈ e.2.paths → e.2.paths.length < 2) →
        ∀ dg ∈ dups, ¬ p ∈ dg.files) := by
  refine ⟨update_duplicate_groups_eq fs groups, fun e _ _ => rfl, ?_⟩
  intro dups hupd p hp dg hdg
  rw [update_duplicate_groups_eq] at hupd
  have hdups : dups
      = (groups.filter fun e => decide (1 < e.2.paths.length)).map (finalDup fs) :=
    (Option.some.injEq _ _ ▸ hupd).symm
  rw [hdups] at hdg
  rcases List.mem_map.1 hdg with ⟨e, hef, rfl⟩
  have hmem := List.mem_filter.1 hef
  have h2 : 1 < e.2.paths.length := by simpa using hmem.2
  intro hpmem
  have := hp e hmem.1 hpmem
  omega

/-- Witness for C4 at a concrete input: a singleton bucket produces no
output group, and a path confined to singleton buckets is in no emitted
group. -/
theorem resolver_emits_groups_witness :
    update_duplicate_groups (fun _ => some []) [(("c", 5), ⟨5, ["a"]⟩)] = some []
    ∧ (∀ dg ∈ ([] : List DuplicateGroup), ¬ "a" ∈ dg.files) := by
  have h := resolver_emits_groups (fun _ => some []) [(("c", 5), ⟨5, ["a"]⟩)]
  have h1 : update_duplicate_groups (fun _ => some []) [(("c", 5), ⟨5, ["a"]⟩)]
      = some [] := h.1.trans (by decide)
  exact ⟨h1, h.2.2 [] h1 "a" (by decide)⟩

/-- C5: every bucket's depth starts at min(file_size, 512); extension never
decreases a depth and never exceeds file_size when members have exactly
file_size bytes; and the resolver only ever raises a stored depth. -/
theorem depth_monotone_bounded :
    (∀ (md5hex : List Nat → String) (fs : String → Option (List Nat))
        (sz : String → Option Nat) (files : List String),
      ∀ e ∈ scan_directory md5hex fs sz files,
        e.2.depth = min e.1.2 INITIAL_CHUNK_SIZE)
    ∧ (∀ (fs : String → Option (List Nat)) (p : String) (ps : List String)
        (current_depth file_size : Nat),
        (∀ q ∈ p :: ps, ∃ c, fs q = some c ∧ c.length = file_size) →
        current_depth ≤ file_size →
        ∃ r, extend_common_prefix fs (p :: ps) current_depth file_size = some r
          ∧ current_depth ≤ r ∧ r ≤ file_size)
    ∧ (∀ (fs : String → Option (List Nat)) (e : Entry),
        e.2.depth ≤ (finalEntry fs e).2.depth) := by
  refine ⟨?_, ?_, ?_⟩
  · intro md5hex fs sz files e he
    exact scan_directory_depth md5hex fs sz files e he
  · intro fs p ps d fsize hall hd
    obtain ⟨r, hr⟩ := Option.isSome_iff_exists.1 (extendLoop_isSome fs p ps fsize d)
    refine ⟨r, hr, extendLoop_ge fs (p :: ps) fsize d r hr, ?_⟩
    apply extendLoop_le fs p ps fsize d r hd ?_ hr
    obtain ⟨c, hc, hcl⟩ := hall p (List.mem_cons_self _ _)
    rw [contentOf_eq fs p c hc]
    omega
  · intro fs e
    exact finalEntry_depth_ge fs e

/-- Witness for C5 at a concrete input: a two-member group of one-byte
files extends from depth 0 to a depth between 0 and 1. -/
theorem depth_monotone_bounded_witness :
    ∃ r, extend_common_prefix (fun _ => some [7]) ["a", "b"] 0 1 = some r
      ∧ 0 ≤ r ∧ r ≤ 1 :=
  depth_monotone_bounded.2.1 (fun _ => some [7]) "a" ["b"] 0 1
    (fun q _ => ⟨[7], rfl, rfl⟩) (by omega)

/-- C8: the analysis is deterministic — two runs over the same directory
listing, the same file bytes and sizes, and the same (non-randomized)
digest function produce identical buckets and identical duplicate groups;
it is a function of those observations only. -/
theorem analysis_deterministic (md5hex1 md5hex2 : List Nat → String)
    (fs1 fs2 : String → Option (List Nat)) (sz1 sz2 : String → Option Nat)
    (files1 files2 : List String)
    (hmd5 : ∀ l, md5hex1 l = md5hex2 l)
    (hfs : ∀ p, fs1 p = fs2 p) (hsz : ∀ p, sz1 p = sz2 p)
    (hfiles : files1 = files2) :
    scan_directory md5hex1 fs1 sz1 files1 = scan_directory md5hex2 fs2 sz2 files2
    ∧ analyze md5hex1 fs1 sz1 files1 = analyze md5hex2 fs2 sz2 files2 := by
  have h1 : md5hex1 = md5hex2 := funext hmd5
  have h2 : fs1 = fs2 := funext hfs
  have h3 : sz1 = sz2 := funext hsz
  subst h1 h2 h3 hfiles
  exact ⟨rfl, rfl⟩

/-- Witness for C8 at a concrete input. -/
theorem analysis_deterministic_witness :
    analyze (fun _ => "h") (fun _ => some []) (fun _ => some 0) ["a"]
      = analyze (fun _ => "h") (fun _ => some []) (fun _ => some 0) ["a"] :=
  (analysis_deterministic (fun _ => "h") (fun _ => "h") (fun _ => some [])
    (fun _ => some []) (fun _ => some 0) (fun _ => some 0) ["a"] ["a"]
    (fun _ => rfl) (fun _ => rfl) (fun _ => rfl) rfl).2

/-- C9: `extend_common_prefix` called with an empty path list and
`current_depth < file_size` hits the `chunks[0]` out-of-range access
(modelled as `none`); under the resolver's calling precondition the error
branch is unreachable: on non-empty paths the function always returns a
value, and `update_duplicate_groups` always succeeds. -/
theorem empty_paths_error_unreachable :
    (∀ (fs : String → Option (List Nat)) (current_depth file_size : Nat),
      current_depth < file_size →
      extend_common_prefix fs [] current_depth file_size = none)
    ∧ (∀ (fs : String → Option (List Nat)) (p : String) (ps : List String)
        (current_depth file_size : Nat),
        ( extend_common_prefix fs (p :: ps) current_depth file_size).isSome)
    ∧ (∀ (fs : String → Option (List Nat)) (groups : List Entry),
        (update_duplicate_groups fs groups).isSome) := by
  refine ⟨?_, ?_, ?_⟩
  · intro fs d fsize hd
    rw [ extend_common_prefix, extendLoop, dif_pos hd]
    simp
  · intro fs p ps d fsize
    exact extendLoop_isSome fs p ps fsize d
  · intro fs groups
    rw [update_duplicate_groups, updateLoop_eq]
    rfl

/-- Witness for C9 at concrete inputs: the empty-path crash at depth 0 of a
1-byte comparison, and the resolver-side safety. -/
theorem empty_paths_error_unreachable_witness :
    extend_common_prefix (fun _ => some []) [] 0 1 = none
    ∧ ( extend_common_prefix (fun _ => some []) ["a"] 0 1).isSome
    ∧ (update_duplicate_groups (fun _ => some []) []).isSome :=
  ⟨ empty_paths_error_unreachable.1 (fun _ => some []) 0 1 (by omega),
    empty_paths_error_unreachable.2.1 (fun _ => some []) "a" [] 0 1,
    empty_paths_error_unreachable.2.2 (fun _ => some []) []⟩

/-- C10: the resolver rewrites the mapping in place: entries stay in order
with keys and paths untouched; a singleton group, or a group whose depth
already covers the file, is returned unchanged; a group of at least two
members with depth < file_size gets exactly its depth field overwritten
with the extension result; and each emitted record's files field is the
group's own paths list in original insertion order. -/
theorem update_in_place_frame (fs : String → Option (List Nat)) :
    (∀ groups : List Entry, updateLoop fs groups
        = some (groups.map (finalEntry fs),
            (groups.filter fun e => decide (1 < e.2.paths.length)).map (finalDup fs)))
    ∧ (∀ e : Entry, (finalEntry fs e).1 = e.1)
    ∧ (∀ e : Entry, (finalEntry fs e).2.paths = e.2.paths)
    ∧ (∀ e : Entry, e.2.paths.length < 2 → finalEntry fs e = e)
    ∧ (∀ e : Entry, 2 ≤ e.2.paths.length → e.2.depth < e.1.2 →
        ∃ nd, extend_common_prefix fs e.2.paths e.2.depth e.1.2 = some nd
          ∧ (finalEntry fs e).2.depth = nd)
    ∧ (∀ e : Entry, ¬ e.2.depth < e.1.2 → finalEntry fs e = e)
    ∧ (∀ e : Entry, finalDup fs e
        = ⟨e.1.1, e.1.2, (finalEntry fs e).2.depth, e.2.paths⟩) := by
  refine ⟨updateLoop_eq fs, finalEntry_key fs, finalEntry_paths fs, ?_, ?_, ?_,
    fun e => rfl⟩
  · intro e h2
    rw [finalEntry, if_pos h2]
  · intro e h2 hda
    obtain ⟨p, ps, hpe⟩ : ∃ p ps, e.2.paths = p :: ps := by
      cases hp : e.2.paths with
      | nil => rw [hp] at h2; simp at h2
      | cons a as => exact ⟨a, as, rfl⟩
    obtain ⟨nd, hnd⟩ := Option.isSome_iff_exists.1
      (extendLoop_isSome fs p ps e.1.2 e.2.depth)
    refine ⟨nd, ?_, ?_⟩
    · rw [hpe]
      rw [ extend_common_prefix]
      exact hnd
    · rw [finalEntry, if_neg (by omega), if_pos hda]
      rw [hpe]
      rw [ extend_common_prefix]
      rw [hnd]
      rfl
  · intro e hda
    rw [finalEntry]
    by_cases h2 : e.2.paths.length < 2
    · rw [if_pos h2]
    · rw [if_neg h2, if_neg hda]

/-- Witness for C10 at concrete inputs: a singleton entry and an
already-covered entry are unchanged; a two-member entry has its depth
overwritten with the extension result. -/
theorem update_in_place_frame_witness :
    finalEntry (fun _ => some [7]) (("c", 1), ⟨1, ["a"]⟩) = (("c", 1), ⟨1, ["a"]⟩)
    ∧ ∃ nd, extend_common_prefix (fun _ => some [7]) ["a", "b"] 0 1 = some nd
        ∧ (finalEntry (fun _ => some [7]) (("c", 1), ⟨0, ["a", "b"]⟩)).2.depth = nd := by
  constructor
  · exact (update_in_place_frame (fun _ => some [7])).2.2.2.1
      (("c", 1), ⟨1, ["a"]⟩) (by norm_num)
  · exact (update_in_place_frame (fun _ => some [7])).2.2.2.2.1
      (("c", 1), ⟨0, ["a", "b"]⟩) (by norm_num) (by norm_num)

end Dedup

namespace Dedup

/-- C6: when the tree holds at least two zero-byte files, all zero-byte
files land in exactly one bucket — keyed by the digest of the empty byte
string, with depth 0 — the resolver leaves that bucket unextended, and the
output holds exactly one DuplicateGroup with file_size 0, which has
common_prefix 0 and lists exactly the zero-byte files. -/
theorem zero_byte_files_single_group (md5hex : List Nat → String)
    (fs : String → Option (List Nat)) (sz : String → Option Nat)
    (files : List String) (hh0 : ¬ md5hex [] = "")
    (hz : 2 ≤ (files.filter (isZeroFile fs sz)).length) :
    (scan_directory md5hex fs sz files).filter (fun e => e.1.2 == 0)
        = [((md5hex [], 0), ⟨0, files.filter (isZeroFile fs sz)⟩)]
    ∧ finalEntry fs ((md5hex [], 0), ⟨0, files.filter (isZeroFile fs sz)⟩)
        = ((md5hex [], 0), ⟨0, files.filter (isZeroFile fs sz)⟩)
    ∧ (∀ dups, update_duplicate_groups fs (scan_directory md5hex fs sz files)
          = some dups →
        dups.filter (fun dg => dg.file_size == 0)
          = [⟨md5hex [], 0, 0, files.filter (isZeroFile fs sz)⟩]) := by
  have hzne : ¬ files.filter (isZeroFile fs sz) = [] := by
    intro h
    rw [h] at hz
    simp at hz
  have hscanZ : (scan_directory md5hex fs sz files).filter (fun e => e.1.2 == 0)
      = [((md5hex [], 0), ⟨0, files.filter (isZeroFile fs sz)⟩)] := by
    rw [scan_directory_zero md5hex fs sz files hh0, zeroEntryList, if_neg hzne]
  have hfe : finalEntry fs ((md5hex [], 0), ⟨0, files.filter (isZeroFile fs sz)⟩)
      = ((md5hex [], 0), ⟨0, files.filter (isZeroFile fs sz)⟩) := by
    rw [finalEntry]
    dsimp only
    rw [if_neg (by omega), if_neg (by omega)]
  refine ⟨hscanZ, hfe, ?_⟩
  intro dups hupd
  rw [update_duplicate_groups_eq] at hupd
  have hdups : dups = ((scan_directory md5hex fs sz files).filter
      fun e => decide (1 < e.2.paths.length)).map (finalDup fs) :=
    (Option.some.injEq _ _ ▸ hupd).symm
  rw [hdups, List.filter_map]
  have hff : ((scan_directory md5hex fs sz files).filter
        fun e => decide (1 < e.2.paths.length)).filter
        ((fun dg => dg.file_size == 0) ∘ finalDup fs)
      = ((scan_directory md5hex fs sz files).filter (fun e => e.1.2 == 0)).filter
        (fun e => decide (1 < e.2.paths.length)) := by
    rw [List.filter_filter, List.filter_filter]
    apply List.filter_congr
    intro x hx
    show ((x.1.2 == 0) && decide (1 < x.2.paths.length))
      = (decide (1 < x.2.paths.length) && (x.1.2 == 0))
    exact Bool.and_comm _ _
  rw [hff, hscanZ, List.filter_cons]
  rw [if_pos (by simp only [List.filter_nil]; simpa using hz)]
  rw [List.filter_nil, List.map_cons, List.map_nil]
  have hfz : finalDup fs ((md5hex [], 0), ⟨0, files.filter (isZeroFile fs sz)⟩)
      = ⟨md5hex [], 0, 0, files.filter (isZeroFile fs sz)⟩ := by
    rw [finalDup, hfe]
  rw [hfz]

/-- Witness for C6 at a concrete input: two empty files produce the single
zero bucket holding both. -/
theorem zero_byte_files_single_group_witness :
    (scan_directory (fun _ => "d") (fun _ => some ([] : List Nat))
        (fun _ => some 0) ["a", "b"]).filter (fun e => e.1.2 == 0)
      = [(("d", 0), ⟨0, ["a", "b"]⟩)] := by
  have h := zero_byte_files_single_group (fun _ => "d") (fun _ => some [])
    (fun _ => some 0) ["a", "b"] (by decide) (by decide)
  exact h.1.trans (by decide)

/-- C7: a file whose read fails during initial fingerprinting is inserted
into no bucket and appears in no output group; the scan result is the same
as if the listing had not contained the file at all (the run continues with
the remaining files). -/
theorem unreadable_file_excluded (md5hex : List Nat → String)
    (fs : String → Option (List Nat)) (sz : String → Option Nat)
    (p : String) (hp : fs p = none) (files : List String) :
    scan_directory md5hex fs sz files
        = scan_directory md5hex fs sz (files.filter fun q => decide (¬ q = p))
    ∧ (∀ e ∈ scan_directory md5hex fs sz files, ¬ p ∈ e.2.paths)
    ∧ (∀ dups, update_duplicate_groups fs (scan_directory md5hex fs sz files)
          = some dups → ∀ dg ∈ dups, ¬ p ∈ dg.files) := by
  refine ⟨?_, ?_, ?_⟩
  · unfold scan_directory
    exact scan_skip_aux md5hex fs sz p hp files []
  · intro e he hmem
    exact scan_directory_paths md5hex fs sz files e he p hmem hp
  · intro dups hupd dg hdg hmem
    rw [update_duplicate_groups_eq] at hupd
    have hdups : dups = ((scan_directory md5hex fs sz files).filter
        fun e => decide (1 < e.2.paths.length)).map (finalDup fs) :=
      (Option.some.injEq _ _ ▸ hupd).symm
    rw [hdups] at hdg
    rcases List.mem_map.1 hdg with ⟨e, hef, rfl⟩
    exact scan_directory_paths md5hex fs sz files e
      (List.mem_filter.1 hef).1 p hmem hp

/-- Witness for C7 at a concrete input: file a is unreadable, so scanning
[a, b] equals scanning [b]. -/
theorem unreadable_file_excluded_witness :
    scan_directory (fun _ => "h") (fun q => if q = "a" then none else some [])
        (fun _ => some 0) ["a", "b"]
      = scan_directory (fun _ => "h") (fun q => if q = "a" then none else some [])
        (fun _ => some 0) (["a", "b"].filter fun q => decide (¬ q = "a")) :=
  (unreadable_file_excluded (fun _ => "h")
    (fun q => if q = "a" then none else some []) (fun _ => some 0) "a"
    (by decide) ["a", "b"]).1

end Dedup
